import Mathlib

/-!
Shallow embedding of NVLL/distribution/vmf_hypvae.py: the differentiable
von Mises-Fisher latent layer (custom scaled-Bessel gradient, parameter
estimation, KL divergence against the uniform prior, and rejection-based
sampling on the hypersphere).

Vectors are lists of reals; a batch is a list of rows.  The external
scaled-Bessel routine (scipy ive) and loggamma are abstracted as function
parameters, since they live outside this repository.  Random draws
(beta, uniform, standard normal) are passed in explicitly as streams, so
the rejection loop becomes a recursion over the stream of draws that
returns none when the stream is exhausted.
-/

set_option linter.unusedVariables false

namespace VmfHypVae

/-- Sum of squares of the entries of a vector. -/
noncomputable def sumSq (v : List ℝ) : ℝ := (v.map (fun x => x ^ 2)).sum

/-- Euclidean norm: torch.norm with p = 2 along the feature axis. -/
noncomputable def l2norm (v : List ℝ) : ℝ := Real.sqrt (sumSq v)

/-- Dot product of two vectors (truncating at the shorter one, as zip does). -/
noncomputable def dot (a b : List ℝ) : ℝ := (List.zipWith (fun x y => x * y) a b).sum

/-- Divide every entry by the Euclidean norm: the mu / torch.norm(mu) pattern. -/
noncomputable def normalizeRow (v : List ℝ) : List ℝ := v.map (fun x => x / l2norm v)

/-- Width of a batch matrix: the length of its first row, as mu.size gives it. -/
def mat_width (m : List (List ℝ)) : ℕ := (m.headD []).length

/-- BesselIve.backward: the custom backward pass of the scaled-Bessel autograd
operation.  It returns the pair of gradients (w.r.t. the order, w.r.t. the
argument); the order gradient is always none, the argument gradient uses the
recurrence ive (dim - 1) kappa - ive dim kappa * (dim + kappa) / kappa, with
the same forward operation ive invoked at orders dim - 1 and dim. -/
noncomputable def besselIve_backward (ive : ℝ → ℝ → ℝ) (dim kappa grad_output : ℝ) :
    Option ℝ × ℝ :=
  (none, grad_output * (ive (dim - 1) kappa - ive dim kappa * (dim + kappa) / kappa))

/-- torch.nn.Softplus. -/
noncomputable def softplus (x : ℝ) : ℝ := Real.log (1 + Real.exp x)

/-- torch.nn.Linear: each output entry is the dot product of a weight row with
the input plus the matching bias entry. -/
noncomputable def linearLayer (weight : List (List ℝ)) (bias : List ℝ) (input : List ℝ) :
    List ℝ :=
  List.zipWith (fun row b => dot row input + b) weight bias

/-- The dictionary returned by VmfDiff.estimate_param for one example. -/
structure VmfParams where
  kappa : List ℝ
  mu : List ℝ
  norm : List ℝ
  redundant_norm : ℝ

/-- VmfDiff.estimate_param on one example: kappa is the softplus of the
func_kappa projection, mu is the func_mu projection divided by its Euclidean
norm, norm is a vector of ones shaped like mu, and redundant_norm is the
squared deviation of the raw projection norm from 1. -/
noncomputable def estimate_param (Wmu : List (List ℝ)) (bmu : List ℝ)
    (Wkappa : List (List ℝ)) (bkappa : List ℝ) (latent_code : List ℝ) :
    VmfParams :=
  let mu0 := linearLayer Wmu bmu latent_code
  { kappa := (linearLayer Wkappa bkappa latent_code).map softplus
    mu := normalizeRow mu0
    norm := mu0.map (fun _ => 1)
    redundant_norm := (l2norm mu0 - 1) ^ 2 }

/-- VmfDiff.compute_KLD: per example first + second + const, where the
constant term is computed once per call (the let binding) and the code uses
the literal 3.1415926 for pi.  ive abstracts the scaled-Bessel forward and
loggamma abstracts scipy loggamma. -/
noncomputable def compute_KLD (ive : ℝ → ℝ → ℝ) (loggamma : ℝ → ℝ)
    (lat_dim : ℕ) (kappa : List ℝ) : List ℝ :=
  let const : ℝ := Real.log 3.1415926 * (lat_dim : ℝ) / 2 + Real.log 2
      - loggamma ((lat_dim : ℝ) / 2) - (lat_dim : ℝ) / 2 * Real.log (2 * 3.1415926)
  kappa.map (fun k =>
    k * ive ((lat_dim : ℝ) / 2) k / ive ((lat_dim : ℝ) / 2 - 1) k
      + (((lat_dim : ℝ) / 2 - 1) * Real.log k
          - Real.log (ive ((lat_dim : ℝ) / 2 - 1) k))
      + const)

/-- The envelope constant b of the rejection sampler, with dimm = dim - 1. -/
noncomputable def sw_b (kappa dimm : ℝ) : ℝ :=
  dimm / (Real.sqrt (4 * kappa ^ 2 + dimm ^ 2) + 2 * kappa)

/-- The constant x = (1 - b) / (1 + b) of the rejection sampler. -/
noncomputable def sw_x (b : ℝ) : ℝ := (1 - b) / (1 + b)

/-- The constant c = kappa * x + dimm * log (1 - x ^ 2) of the rejection
sampler. -/
noncomputable def sw_c (kappa dimm x : ℝ) : ℝ :=
  kappa * x + dimm * Real.log (1 - x ^ 2)

/-- The candidate weight built from a beta draw z. -/
noncomputable def sw_w (b z : ℝ) : ℝ :=
  (1 - (1 + b) * z) / (1 - (1 - b) * z)

/-- The acceptance test of the rejection sampler on one draw zu = (z, u). -/
noncomputable def sw_accept (kappa dimm b x c : ℝ) (zu : ℝ × ℝ) : Prop :=
  kappa * sw_w b zu.1 + dimm * Real.log (1 - x * sw_w b zu.1) - c ≥ Real.log zu.2

open Classical in
/-- The while True loop of VmfDiff._sample_weight over an explicit stream of
(beta, uniform) draws: the first accepted candidate is returned, none when the
stream runs out. -/
noncomputable def sample_weight_go (kappa dimm b x c : ℝ) :
    List (ℝ × ℝ) → Option ℝ
  | [] => none
  | zu :: rest =>
    if sw_accept kappa dimm b x c zu then some (sw_w b zu.1)
    else sample_weight_go kappa dimm b x c rest

/-- VmfDiff._sample_weight: set dimm = dim - 1, compute the constants b, x, c
and run the rejection loop over the draws. -/
noncomputable def sample_weight (kappa : ℝ) (dim : ℕ) (draws : List (ℝ × ℝ)) :
    Option ℝ :=
  sample_weight_go kappa ((dim : ℝ) - 1) (sw_b kappa ((dim : ℝ) - 1))
    (sw_x (sw_b kappa ((dim : ℝ) - 1)))
    (sw_c kappa ((dim : ℝ) - 1) (sw_x (sw_b kappa ((dim : ℝ) - 1)))) draws

/-- Sequence a list of optional values: none when any entry is none. -/
def seqOption {α : Type} : List (Option α) → Option (List α)
  | [] => some []
  | none :: _ => none
  | some x :: rest => (seqOption rest).map (fun xs => x :: xs)

/-- VmfDiff._sample_weight_batch: one rejection-sampled weight per example,
each example consuming its own stream of draws. -/
noncomputable def sample_weight_batch (kappa : List ℝ) (dim : ℕ)
    (drawss : List (List (ℝ × ℝ))) : Option (List ℝ) :=
  seqOption (List.zipWith (fun k ds => sample_weight k dim ds) kappa drawss)

/-- The residual of one row of VmfDiff._sample_ortho_batch: the random vector
v minus mu times the batched dot product of mu and v. -/
noncomputable def ortho_residual (mu v : List ℝ) : List ℝ :=
  List.zipWith (fun a b => a - b) v (mu.map (fun m => m * dot mu v))

/-- One row of VmfDiff._sample_ortho_batch: the residual renormalized to unit
length. -/
noncomputable def sample_ortho_row (mu v : List ℝ) : List ℝ :=
  normalizeRow (ortho_residual mu v)

/-- VmfDiff._sample_ortho_batch: asserts that the width of mu equals the dim
argument (the assert statement in the source, modelled as returning none when
it fails), then maps the per-row computation over the batch, row b consuming
the standard-normal draw vdraws b. -/
noncomputable def sample_ortho_batch (mu : List (List ℝ)) (dim : ℕ)
    (vdraws : List (List ℝ)) : Option (List (List ℝ)) :=
  if mat_width mu = dim then some (List.zipWith sample_ortho_row mu vdraws)
  else none

/-- One row of the combination step of VmfDiff.sample_cell: the orthogonal
vector scaled by sqrt (1 - w ^ 2) plus the mean direction scaled by w, the
scalar weight w broadcast across the coordinates of the row. -/
noncomputable def combineRow (w : ℝ) (v muRow : List ℝ) : List ℝ :=
  List.zipWith (fun vj mj => vj * Real.sqrt (1 - w ^ 2) + mj * w) v muRow

/-- The combination step over the whole batch. -/
noncomputable def combineRows : List ℝ → List (List ℝ) → List (List ℝ) →
    List (List ℝ)
  | w :: ws, vrow :: vrows, mrow :: mrows =>
    combineRow w vrow mrow :: combineRows ws vrows mrows
  | _, _, _ => []

/-- VmfDiff.sample_cell: renormalize mu, draw the per-example weights via the
rejection sampler, draw the per-example orthogonal directions, and combine.
The norm argument is accepted but never read in the body, exactly as in the
source. -/
noncomputable def sample_cell (mu norm : List (List ℝ)) (kappa : List ℝ)
    (wdraws : List (List (ℝ × ℝ))) (vdraws : List (List ℝ)) :
    Option (List (List ℝ)) :=
  (sample_weight_batch kappa (mat_width mu) wdraws).bind (fun ws =>
    (sample_ortho_batch (mu.map normalizeRow) (mat_width mu) vdraws).map
      (fun vrows => combineRows ws vrows (mu.map normalizeRow)))

/-! ### Basic lemmas about the vector operations -/

theorem sumSq_nil : sumSq [] = 0 := rfl

theorem sumSq_cons (x : ℝ) (xs : List ℝ) : sumSq (x :: xs) = x ^ 2 + sumSq xs := by
  simp [sumSq]

theorem sumSq_nonneg (v : List ℝ) : 0 ≤ sumSq v := by
  induction v with
  | nil => simp [sumSq_nil]
  | cons x xs ih => rw [sumSq_cons]; positivity

theorem sumSq_eq_zero (v : List ℝ) : sumSq v = 0 ↔ ∀ x ∈ v, x = 0 := by
  induction v with
  | nil => simp [sumSq_nil]
  | cons x xs ih =>
    rw [sumSq_cons]
    constructor
    · intro h
      have hx2 : 0 ≤ x ^ 2 := sq_nonneg x
      have hs : 0 ≤ sumSq xs := sumSq_nonneg xs
      have hx : x ^ 2 = 0 := by linarith
      have hx0 : x = 0 := by
        have := sq_eq_zero_iff.mp hx
        exact this
      intro y hy
      rcases List.mem_cons.mp hy with h1 | h2
      · rw [h1, hx0]
      · exact ih.mp (by linarith) y h2
    · intro h
      have hx0 : x = 0 := h x (List.mem_cons_self x xs)
      have hs : sumSq xs = 0 := ih.mpr (fun y hy => h y (List.mem_cons_of_mem x hy))
      rw [hx0, hs]; ring

theorem sumSq_map_div (v : List ℝ) (c : ℝ) :
    sumSq (v.map (fun x => x / c)) = sumSq v / c ^ 2 := by
  induction v with
  | nil => simp [sumSq_nil]
  | cons x xs ih =>
    simp only [List.map_cons, sumSq_cons, ih]
    rw [div_pow, add_div]

theorem sumSq_of_l2norm_eq_one (v : List ℝ) (h : l2norm v = 1) : sumSq v = 1 := by
  have h2 : Real.sqrt (sumSq v) ^ 2 = sumSq v := Real.sq_sqrt (sumSq_nonneg v)
  rw [show Real.sqrt (sumSq v) = 1 from h] at h2
  simpa using h2.symm

theorem l2norm_normalizeRow (v : List ℝ) (hv : ¬ ∀ x ∈ v, x = 0) :
    l2norm (normalizeRow v) = 1 := by
  have hne : sumSq v ≠ 0 := fun h => hv ((sumSq_eq_zero v).mp h)
  have hpos : 0 < sumSq v := lt_of_le_of_ne (sumSq_nonneg v) (Ne.symm hne)
  unfold normalizeRow l2norm
  rw [sumSq_map_div, Real.sq_sqrt (sumSq_nonneg v), div_self hne, Real.sqrt_one]

theorem normalizeRow_of_unit (v : List ℝ) (h : l2norm v = 1) :
    normalizeRow v = v := by
  simp [normalizeRow, h]

theorem dot_nil_right (a : List ℝ) : dot a [] = 0 := by
  cases a <;> rfl

theorem dot_cons_cons (x y : ℝ) (xs ys : List ℝ) :
    dot (x :: xs) (y :: ys) = x * y + dot xs ys := by
  simp [dot]

theorem dot_comm (a : List ℝ) : ∀ b : List ℝ, dot a b = dot b a := by
  induction a with
  | nil => intro b; rw [dot_nil_right]; rfl
  | cons x xs ih =>
    intro b
    cases b with
    | nil => rw [dot_nil_right]; rfl
    | cons y ys => rw [dot_cons_cons, dot_cons_cons, ih, mul_comm]

theorem dot_map_mul_left (a : List ℝ) (r : ℝ) : ∀ b : List ℝ,
    dot (a.map (fun m => m * r)) b = r * dot a b := by
  induction a with
  | nil => intro b; simp [dot]
  | cons x xs ih =>
    intro b
    cases b with
    | nil => simp [dot_nil_right]
    | cons y ys =>
      simp only [List.map_cons, dot_cons_cons, ih]
      ring

theorem dot_map_div_left (a : List ℝ) (c : ℝ) : ∀ b : List ℝ,
    dot (a.map (fun x => x / c)) b = dot a b / c := by
  induction a with
  | nil => intro b; simp [dot]
  | cons x xs ih =>
    intro b
    cases b with
    | nil => simp [dot_nil_right]
    | cons y ys =>
      simp only [List.map_cons, dot_cons_cons, ih]
      ring

theorem dot_zipWith_sub (a : List ℝ) : ∀ (b c : List ℝ), a.length = b.length →
    dot (List.zipWith (fun x y => x - y) a b) c = dot a c - dot b c := by
  induction a with
  | nil =>
    intro b c hlen
    have hb : b = [] := List.eq_nil_of_length_eq_zero hlen.symm
    subst hb; simp [dot]
  | cons x xs ih =>
    intro b c hlen
    cases b with
    | nil => simp at hlen
    | cons y ys =>
      cases c with
      | nil => simp [dot_nil_right]
      | cons z zs =>
        simp only [List.zipWith_cons_cons, dot_cons_cons]
        rw [ih ys zs (by simpa using hlen)]
        ring

theorem dot_self_eq_sumSq (a : List ℝ) : dot a a = sumSq a := by
  induction a with
  | nil => rfl
  | cons x xs ih => rw [dot_cons_cons, sumSq_cons, ih, sq]

/-! ### Claim theorems -/

/-- Claim C1: for every latent dimensionality and strictly positive
per-example concentrations, compute_KLD returns, per example, the value
first + second + const, where first is kappa times the Bessel ratio at
orders d / 2 and d / 2 - 1, second is (d / 2 - 1) * log kappa minus the log
of the Bessel value at order d / 2 - 1, and const is
log pi * d / 2 + log 2 - loggamma (d / 2) - (d / 2) * log (2 * pi), computed
once per call independently of the example.  The source writes the literal
3.1415926 for pi, but the two pi-dependent terms of const cancel exactly, so
the constant equals the one stated with the genuine pi. -/
theorem claim_C1 (ive : ℝ → ℝ → ℝ) (loggamma : ℝ → ℝ) (lat_dim : ℕ)
    (kappa : List ℝ) (hkappa : ∀ k ∈ kappa, 0 < k) (i : ℕ)
    (hi : i < kappa.length) :
    (compute_KLD ive loggamma lat_dim kappa).getD i 0 =
      kappa.getD i 0 * ive ((lat_dim : ℝ) / 2) (kappa.getD i 0)
          / ive ((lat_dim : ℝ) / 2 - 1) (kappa.getD i 0)
        + (((lat_dim : ℝ) / 2 - 1) * Real.log (kappa.getD i 0)
            - Real.log (ive ((lat_dim : ℝ) / 2 - 1) (kappa.getD i 0)))
        + (Real.log Real.pi * (lat_dim : ℝ) / 2 + Real.log 2
            - loggamma ((lat_dim : ℝ) / 2)
            - (lat_dim : ℝ) / 2 * Real.log (2 * Real.pi)) := by
  have hconst : Real.log 3.1415926 * (lat_dim : ℝ) / 2 + Real.log 2
      - loggamma ((lat_dim : ℝ) / 2)
      - (lat_dim : ℝ) / 2 * Real.log (2 * 3.1415926)
      = Real.log Real.pi * (lat_dim : ℝ) / 2 + Real.log 2
      - loggamma ((lat_dim : ℝ) / 2)
      - (lat_dim : ℝ) / 2 * Real.log (2 * Real.pi) := by
    rw [Real.log_mul two_ne_zero (by norm_num),
      Real.log_mul two_ne_zero Real.pi_ne_zero]
    ring
  simp only [compute_KLD]
  rw [List.getD_eq_getElem _ _ (by simpa using hi), List.getElem_map,
    List.getD_eq_getElem _ _ hi, hconst]

/-- Claim C1 witness: the formula at a concrete input. -/
theorem claim_C1_witness :
    (∀ k ∈ [(1 : ℝ)], 0 < k) ∧
    (compute_KLD (fun _ _ => 1) (fun _ => 0) 4 [1]).getD 0 0 =
      1 * 1 / 1 + ((((4 : ℕ) : ℝ) / 2 - 1) * Real.log 1 - Real.log 1)
        + (Real.log Real.pi * ((4 : ℕ) : ℝ) / 2 + Real.log 2 - 0
            - ((4 : ℕ) : ℝ) / 2 * Real.log (2 * Real.pi)) := by
  refine ⟨by norm_num, ?_⟩
  exact claim_C1 (fun _ _ => 1) (fun _ => 0) 4 [1] (by norm_num) 0 (by norm_num)

/-- Claim C2: for every order and strictly positive argument, the custom
Bessel backward pass returns none as the gradient with respect to the order
and grad_output times (ive (nu - 1) kappa - ive nu kappa * (nu + kappa) /
kappa) as the gradient with respect to the argument, invoking the same
forward operation ive at orders nu - 1 and nu. -/
theorem claim_C2 (ive : ℝ → ℝ → ℝ) (nu kappa grad_output : ℝ)
    (hkappa : 0 < kappa) :
    (besselIve_backward ive nu kappa grad_output).1 = none ∧
    (besselIve_backward ive nu kappa grad_output).2 =
      grad_output * (ive (nu - 1) kappa - ive nu kappa * (nu + kappa) / kappa) :=
  ⟨rfl, rfl⟩

/-- Claim C2 witness: the backward pass at a concrete input. -/
theorem claim_C2_witness :
    (0 : ℝ) < 1 ∧
    ((besselIve_backward (fun _ _ => 1) 0 1 1).1 = none ∧
     (besselIve_backward (fun _ _ => 1) 0 1 1).2 =
       1 * ((fun _ _ => (1 : ℝ)) (0 - 1) 1
         - (fun _ _ => (1 : ℝ)) 0 1 * (0 + 1) / 1)) :=
  ⟨one_pos, claim_C2 (fun _ _ => 1) 0 1 1 one_pos⟩

/-- Claim C9 counterexample: the claim that no code path of the module raises
an explicit validation error for a dimension mismatch is false: the assert in
_sample_ortho_batch (modelled as returning none) fires whenever the width of
mu disagrees with the dim argument, for instance width 2 against dim 3. -/
theorem claim_C9_counterexample :
    ¬ ∀ (mu : List (List ℝ)) (dim : ℕ) (vdraws : List (List ℝ)),
        (sample_ortho_batch mu dim vdraws).isSome := by
  intro h
  have := h [[1, 0]] 3 [[1, 1]]
  simp [sample_ortho_batch, mat_width] at this

/-- Claim C9, amended: _sample_ortho_batch does perform explicit dimension
validation: it asserts that the width of the mean-direction batch equals the
declared latent dimension, and raises an assertion error (modelled by none)
whenever they disagree; only other shape mismatches are left to the tensor
framework. -/
theorem claim_C9 (mu : List (List ℝ)) (dim : ℕ) (vdraws : List (List ℝ))
    (h : mat_width mu ≠ dim) :
    sample_ortho_batch mu dim vdraws = none := by
  simp [sample_ortho_batch, h]

/-- Claim C9 witness: the assertion fires on a concrete mismatched input. -/
theorem claim_C9_witness :
    mat_width [[(1 : ℝ), 0]] ≠ 3 ∧
    sample_ortho_batch [[(1 : ℝ), 0]] 3 [[1, 1]] = none := by
  have h : mat_width [[(1 : ℝ), 0]] ≠ 3 := by simp [mat_width]
  exact ⟨h, claim_C9 [[(1 : ℝ), 0]] 3 [[1, 1]] h⟩

/-- Claim C10: the output of sample_cell does not depend on its norm
argument: for any two values of that argument and identical mean directions,
concentrations and random draws, sample_cell returns equal results, because
the argument is accepted but never read in the body. -/
theorem claim_C10 (mu norm1 norm2 : List (List ℝ)) (kappa : List ℝ)
    (wdraws : List (List (ℝ × ℝ))) (vdraws : List (List ℝ)) :
    sample_cell mu norm1 kappa wdraws vdraws =
      sample_cell mu norm2 kappa wdraws vdraws := rfl

/-- Claim C5: for every hidden representation whose func_mu linear projection
is nonzero, the mu returned by estimate_param has Euclidean norm equal to 1,
obtained by linearly projecting the hidden vector and dividing by the norm of
the projection. -/
theorem claim_C5 (Wmu : List (List ℝ)) (bmu : List ℝ) (Wkappa : List (List ℝ))
    (bkappa : List ℝ) (latent_code : List ℝ)
    (h : ¬ ∀ x ∈ linearLayer Wmu bmu latent_code, x = 0) :
    l2norm (estimate_param Wmu bmu Wkappa bkappa latent_code).mu = 1 := by
  have hmu : (estimate_param Wmu bmu Wkappa bkappa latent_code).mu
      = normalizeRow (linearLayer Wmu bmu latent_code) := rfl
  rw [hmu]
  exact l2norm_normalizeRow _ h

/-- Claim C5 witness: a concrete one-dimensional input with projection 1. -/
theorem claim_C5_witness :
    (¬ ∀ x ∈ linearLayer [[(1 : ℝ)]] [0] [1], x = 0) ∧
    l2norm (estimate_param [[(1 : ℝ)]] [0] [[1]] [0] [1]).mu = 1 := by
  have h : ¬ ∀ x ∈ linearLayer [[(1 : ℝ)]] [0] [1], x = 0 := by
    norm_num [linearLayer, dot]
  exact ⟨h, claim_C5 [[(1 : ℝ)]] [0] [[1]] [0] [1] h⟩

/-- Claim C6: for every unit-norm mean direction and every normal draw whose
projected-out residual is nonzero, the per-example row computed by
_sample_ortho_batch has unit Euclidean norm and zero dot product with the
mean direction. -/
theorem claim_C6 (mu v : List ℝ) (hlen : v.length = mu.length)
    (hmu : l2norm mu = 1) (hres : ¬ ∀ x ∈ ortho_residual mu v, x = 0) :
    l2norm (sample_ortho_row mu v) = 1 ∧ dot (sample_ortho_row mu v) mu = 0 := by
  constructor
  · exact l2norm_normalizeRow _ hres
  · have hperp : dot (ortho_residual mu v) mu = 0 := by
      unfold ortho_residual
      rw [dot_zipWith_sub v (mu.map (fun m => m * dot mu v)) mu (by simpa using hlen)]
      rw [dot_map_mul_left mu (dot mu v) mu, dot_self_eq_sumSq,
        sumSq_of_l2norm_eq_one mu hmu, dot_comm v mu]
      ring
    unfold sample_ortho_row normalizeRow
    rw [dot_map_div_left (ortho_residual mu v) (l2norm (ortho_residual mu v)) mu,
      hperp, zero_div]

/-- Claim C6 witness: mean direction (1, 0) and draw (1, 1), residual (0, 1). -/
theorem claim_C6_witness :
    [(1 : ℝ), 1].length = [(1 : ℝ), 0].length ∧
    l2norm [(1 : ℝ), 0] = 1 ∧
    (¬ ∀ x ∈ ortho_residual [(1 : ℝ), 0] [1, 1], x = 0) ∧
    (l2norm (sample_ortho_row [(1 : ℝ), 0] [1, 1]) = 1 ∧
     dot (sample_ortho_row [(1 : ℝ), 0] [1, 1]) [(1 : ℝ), 0] = 0) := by
  have hlen : [(1 : ℝ), 1].length = [(1 : ℝ), 0].length := rfl
  have hmu : l2norm [(1 : ℝ), 0] = 1 := by
    norm_num [l2norm, sumSq, Real.sqrt_one]
  have hres : ¬ ∀ x ∈ ortho_residual [(1 : ℝ), 0] [1, 1], x = 0 := by
    norm_num [ortho_residual, dot]
  exact ⟨hlen, hmu, hres, claim_C6 [(1 : ℝ), 0] [1, 1] hlen hmu hres⟩

theorem sumSq_combineRow (w : ℝ) : ∀ (v m : List ℝ), v.length = m.length →
    sumSq (combineRow w v m) = Real.sqrt (1 - w ^ 2) ^ 2 * sumSq v
      + 2 * Real.sqrt (1 - w ^ 2) * w * dot v m + w ^ 2 * sumSq m := by
  intro v
  induction v with
  | nil =>
    intro m h
    have hm : m = [] := List.eq_nil_of_length_eq_zero h.symm
    subst hm
    simp [combineRow, sumSq_nil, dot]
  | cons x xs ih =>
    intro m h
    cases m with
    | nil => simp at h
    | cons y ys =>
      simp only [combineRow, List.zipWith_cons_cons] at *
      rw [sumSq_cons, sumSq_cons, sumSq_cons, dot_cons_cons]
      have hrec := ih ys (by simpa using h)
      simp only [combineRow] at hrec
      rw [hrec]
      ring

/-- Claim C8: for every unit-norm mean direction, every unit vector
orthogonal to it, and every weight w between -1 and 1, the combined row
v * sqrt (1 - w ^ 2) + mu * w produced by sample_cell has Euclidean norm
exactly 1, so each sampled row lies on the unit sphere. -/
theorem claim_C8 (w : ℝ) (v muRow : List ℝ) (hlen : v.length = muRow.length)
    (hv : l2norm v = 1) (hm : l2norm muRow = 1) (hdot : dot v muRow = 0)
    (hw1 : -1 ≤ w) (hw2 : w ≤ 1) :
    l2norm (combineRow w v muRow) = 1 := by
  have hsq : Real.sqrt (1 - w ^ 2) ^ 2 = 1 - w ^ 2 :=
    Real.sq_sqrt (by nlinarith)
  unfold l2norm
  rw [sumSq_combineRow w v muRow hlen, hsq, sumSq_of_l2norm_eq_one v hv,
    sumSq_of_l2norm_eq_one muRow hm, hdot]
  have hone : (1 - w ^ 2) * 1 + 2 * Real.sqrt (1 - w ^ 2) * w * 0 + w ^ 2 * 1
      = 1 := by ring
  rw [hone, Real.sqrt_one]

/-- Claim C8 witness: orthonormal pair (0, 1), (1, 0) and weight 0. -/
theorem claim_C8_witness :
    [(0 : ℝ), 1].length = [(1 : ℝ), 0].length ∧
    l2norm [(0 : ℝ), 1] = 1 ∧ l2norm [(1 : ℝ), 0] = 1 ∧
    dot [(0 : ℝ), 1] [(1 : ℝ), 0] = 0 ∧
    (-1 : ℝ) ≤ 0 ∧ (0 : ℝ) ≤ 1 ∧
    l2norm (combineRow 0 [(0 : ℝ), 1] [(1 : ℝ), 0]) = 1 := by
  have hlen : [(0 : ℝ), 1].length = [(1 : ℝ), 0].length := rfl
  have hv : l2norm [(0 : ℝ), 1] = 1 := by
    norm_num [l2norm, sumSq, Real.sqrt_one]
  have hm : l2norm [(1 : ℝ), 0] = 1 := by
    norm_num [l2norm, sumSq, Real.sqrt_one]
  have hd : dot [(0 : ℝ), 1] [(1 : ℝ), 0] = 0 := by
    norm_num [dot]
  exact ⟨hlen, hv, hm, hd, by norm_num, by norm_num,
    claim_C8 0 [(0 : ℝ), 1] [(1 : ℝ), 0] hlen hv hm hd (by norm_num) (by norm_num)⟩

/-! ### Lemmas about the rejection sampler -/

theorem sample_weight_go_some (kappa dimm b x c : ℝ) :
    ∀ (draws : List (ℝ × ℝ)) (w : ℝ),
      sample_weight_go kappa dimm b x c draws = some w →
      ∃ i : ℕ, i < draws.length ∧ w = sw_w b (draws.getD i (0, 0)).1 ∧
        sw_accept kappa dimm b x c (draws.getD i (0, 0)) ∧
        ∀ j < i, ¬ sw_accept kappa dimm b x c (draws.getD j (0, 0)) := by
  intro draws
  induction draws with
  | nil => intro w h; simp [sample_weight_go] at h
  | cons zu rest ih =>
    intro w h
    by_cases hacc : sw_accept kappa dimm b x c zu
    · simp only [sample_weight_go, if_pos hacc] at h
      have hw := (Option.some.inj h).symm
      refine ⟨0, by simp, by simpa using hw, by simpa using hacc, ?_⟩
      intro j hj
      omega
    · simp only [sample_weight_go, if_neg hacc] at h
      obtain ⟨i, hi, hw, hacc2, hfirst⟩ := ih w h
      refine ⟨i + 1, by simp; omega, by simpa using hw, by simpa using hacc2, ?_⟩
      intro j hj
      cases j with
      | zero => simpa using hacc
      | succ k => simpa using hfirst k (by omega)

theorem sw_w_half (b : ℝ) (hb : 0 ≤ b) : sw_w b (1 / 2) = sw_x b := by
  have hp : (1 : ℝ) + b ≠ 0 := by positivity
  have hd : (1 : ℝ) - (1 - b) * (1 / 2) ≠ 0 := by nlinarith
  unfold sw_w sw_x
  rw [div_eq_div_iff hd hp]
  ring

theorem sw_accept_u_one (kappa dimm b x z : ℝ) (hw : sw_w b z = x) :
    sw_accept kappa dimm b x (sw_c kappa dimm x) (z, 1) := by
  show kappa * sw_w b z + dimm * Real.log (1 - x * sw_w b z)
      - sw_c kappa dimm x ≥ Real.log 1
  unfold sw_c
  rw [hw, Real.log_one, ← pow_two]
  linarith

theorem sample_weight_eval :
    sample_weight 1 2 [(1 / 2, 1)] = some (sw_x (sw_b 1 1)) := by
  have hb : 0 ≤ sw_b 1 1 := by
    unfold sw_b
    positivity
  have hw : sw_w (sw_b 1 1) (1 / 2) = sw_x (sw_b 1 1) := sw_w_half _ hb
  have hacc : sw_accept 1 1 (sw_b 1 1) (sw_x (sw_b 1 1))
      (sw_c 1 1 (sw_x (sw_b 1 1))) (1 / 2, 1) :=
    sw_accept_u_one 1 1 (sw_b 1 1) (sw_x (sw_b 1 1)) (1 / 2) hw
  unfold sample_weight
  rw [show ((2 : ℕ) : ℝ) - 1 = 1 by norm_num]
  simp only [sample_weight_go, if_pos hacc]
  rw [hw]

theorem sw_b_pos_lt_one (kappa dimm : ℝ) (hk : 0 < kappa) (hd : 1 ≤ dimm) :
    0 < sw_b kappa dimm ∧ sw_b kappa dimm < 1 := by
  have hd0 : 0 < dimm := by linarith
  have hs : dimm ≤ Real.sqrt (4 * kappa ^ 2 + dimm ^ 2) := by
    calc dimm = Real.sqrt (dimm ^ 2) := (Real.sqrt_sq (le_of_lt hd0)).symm
      _ ≤ Real.sqrt (4 * kappa ^ 2 + dimm ^ 2) := Real.sqrt_le_sqrt (by nlinarith)
  have hden : 0 < Real.sqrt (4 * kappa ^ 2 + dimm ^ 2) + 2 * kappa := by linarith
  unfold sw_b
  constructor
  · exact div_pos hd0 hden
  · rw [div_lt_one hden]
    linarith

theorem sw_w_mem_Ioo (b z : ℝ) (hb0 : 0 < b) (hb1 : b < 1) (hz0 : 0 < z)
    (hz1 : z < 1) : -1 < sw_w b z ∧ sw_w b z < 1 := by
  have hden : (0 : ℝ) < 1 - (1 - b) * z := by nlinarith
  unfold sw_w
  constructor
  · rw [lt_div_iff₀ hden]
    nlinarith
  · rw [div_lt_one hden]
    nlinarith [mul_pos hb0 hz0]

/-- Claim C3: for every positive concentration and dimension at least 2, the
rejection sampler returns the first candidate weight whose draw passes the
acceptance test kappa * w + dimm * log (1 - x * w) - c at least log u, with
the constants b, x, c computed from kappa and dimm = dim - 1; in particular
the returned weight satisfies the acceptance inequality for its own draw and
every earlier draw was rejected. -/
theorem claim_C3 (kappa : ℝ) (dim : ℕ) (draws : List (ℝ × ℝ)) (w : ℝ)
    (hkappa : 0 < kappa) (hdim : 2 ≤ dim)
    (hret : sample_weight kappa dim draws = some w) :
    ∃ i : ℕ, i < draws.length ∧
      w = sw_w (sw_b kappa ((dim : ℝ) - 1)) (draws.getD i (0, 0)).1 ∧
      sw_accept kappa ((dim : ℝ) - 1) (sw_b kappa ((dim : ℝ) - 1))
        (sw_x (sw_b kappa ((dim : ℝ) - 1)))
        (sw_c kappa ((dim : ℝ) - 1) (sw_x (sw_b kappa ((dim : ℝ) - 1))))
        (draws.getD i (0, 0)) ∧
      ∀ j < i, ¬ sw_accept kappa ((dim : ℝ) - 1) (sw_b kappa ((dim : ℝ) - 1))
        (sw_x (sw_b kappa ((dim : ℝ) - 1)))
        (sw_c kappa ((dim : ℝ) - 1) (sw_x (sw_b kappa ((dim : ℝ) - 1))))
        (draws.getD j (0, 0)) :=
  sample_weight_go_some kappa ((dim : ℝ) - 1) (sw_b kappa ((dim : ℝ) - 1))
    (sw_x (sw_b kappa ((dim : ℝ) - 1)))
    (sw_c kappa ((dim : ℝ) - 1) (sw_x (sw_b kappa ((dim : ℝ) - 1)))) draws w hret

/-- Claim C3 witness: with kappa 1 and dim 2, the beta draw one half yields
the candidate equal to x, which is accepted against the uniform draw 1. -/
theorem claim_C3_witness :
    (0 : ℝ) < 1 ∧ (2 : ℕ) ≤ 2 ∧
    (∃ i : ℕ, i < [((1 : ℝ) / 2, (1 : ℝ))].length ∧
      sw_x (sw_b 1 1) = sw_w (sw_b 1 (((2 : ℕ) : ℝ) - 1))
        ([((1 : ℝ) / 2, (1 : ℝ))].getD i (0, 0)).1 ∧
      sw_accept 1 (((2 : ℕ) : ℝ) - 1) (sw_b 1 (((2 : ℕ) : ℝ) - 1))
        (sw_x (sw_b 1 (((2 : ℕ) : ℝ) - 1)))
        (sw_c 1 (((2 : ℕ) : ℝ) - 1) (sw_x (sw_b 1 (((2 : ℕ) : ℝ) - 1))))
        ([((1 : ℝ) / 2, (1 : ℝ))].getD i (0, 0)) ∧
      ∀ j < i, ¬ sw_accept 1 (((2 : ℕ) : ℝ) - 1) (sw_b 1 (((2 : ℕ) : ℝ) - 1))
        (sw_x (sw_b 1 (((2 : ℕ) : ℝ) - 1)))
        (sw_c 1 (((2 : ℕ) : ℝ) - 1) (sw_x (sw_b 1 (((2 : ℕ) : ℝ) - 1))))
        ([((1 : ℝ) / 2, (1 : ℝ))].getD j (0, 0))) := by
  refine ⟨one_pos, le_refl 2, ?_⟩
  exact claim_C3 1 2 [(1 / 2, 1)] (sw_x (sw_b 1 1)) one_pos (le_refl 2)
    sample_weight_eval

/-- Claim C4: for every positive concentration, dimension at least 2 and beta
draws inside the open unit interval, whenever the rejection sampler returns,
the returned weight lies strictly between -1 and 1. -/
theorem claim_C4 (kappa : ℝ) (dim : ℕ) (draws : List (ℝ × ℝ)) (w : ℝ)
    (hkappa : 0 < kappa) (hdim : 2 ≤ dim)
    (hz : ∀ zu ∈ draws, 0 < zu.1 ∧ zu.1 < 1)
    (hret : sample_weight kappa dim draws = some w) :
    -1 < w ∧ w < 1 := by
  obtain ⟨i, hi, hw, -, -⟩ := sample_weight_go_some kappa ((dim : ℝ) - 1)
    (sw_b kappa ((dim : ℝ) - 1)) (sw_x (sw_b kappa ((dim : ℝ) - 1)))
    (sw_c kappa ((dim : ℝ) - 1) (sw_x (sw_b kappa ((dim : ℝ) - 1)))) draws w hret
  have hdimm : 1 ≤ (dim : ℝ) - 1 := by
    have h2 : (2 : ℝ) ≤ (dim : ℝ) := by exact_mod_cast hdim
    linarith
  obtain ⟨hb0, hb1⟩ := sw_b_pos_lt_one kappa ((dim : ℝ) - 1) hkappa hdimm
  have hmem : draws.getD i (0, 0) ∈ draws := by
    rw [List.getD_eq_getElem _ _ hi]
    exact List.getElem_mem _
  obtain ⟨hz0, hz1⟩ := hz _ hmem
  rw [hw]
  exact sw_w_mem_Ioo _ _ hb0 hb1 hz0 hz1

/-- Claim C4 witness: the weight returned on the concrete accepted draw lies
strictly between -1 and 1. -/
theorem claim_C4_witness :
    (0 : ℝ) < 1 ∧ (2 : ℕ) ≤ 2 ∧
    (∀ zu ∈ [((1 : ℝ) / 2, (1 : ℝ))], 0 < zu.1 ∧ zu.1 < 1) ∧
    (-1 < sw_x (sw_b 1 1) ∧ sw_x (sw_b 1 1) < 1) := by
  refine ⟨one_pos, le_refl 2, by norm_num, ?_⟩
  exact claim_C4 1 2 [(1 / 2, 1)] (sw_x (sw_b 1 1)) one_pos (le_refl 2)
    (by norm_num) sample_weight_eval

theorem map_normalizeRow_of_unit (mu : List (List ℝ))
    (hmu : ∀ r ∈ mu, l2norm r = 1) : mu.map normalizeRow = mu := by
  induction mu with
  | nil => rfl
  | cons r rs ih =>
    simp only [List.map_cons]
    rw [normalizeRow_of_unit r (hmu r (List.mem_cons_self r rs)),
      ih (fun s hs => hmu s (List.mem_cons_of_mem r hs))]

/-- Claim C7: for every batch of unit mean directions whose per-example
weights were successfully drawn, sample_cell returns per example the row
v * sqrt (1 - w ^ 2) + mu * w, where v is the orthogonal direction produced
for that example and the scalar weight w is broadcast across the
coordinates. -/
theorem claim_C7 (mu norm : List (List ℝ)) (kappa : List ℝ)
    (wdraws : List (List (ℝ × ℝ))) (vdraws : List (List ℝ)) (ws : List ℝ)
    (hmu : ∀ r ∈ mu, l2norm r = 1)
    (hws : sample_weight_batch kappa (mat_width mu) wdraws = some ws) :
    sample_cell mu norm kappa wdraws vdraws =
      some (combineRows ws (List.zipWith sample_ortho_row mu vdraws) mu) := by
  unfold sample_cell
  rw [map_normalizeRow_of_unit mu hmu, hws]
  simp [sample_ortho_batch]

/-- Claim C7 witness: a concrete one-example batch. -/
theorem claim_C7_witness :
    (∀ r ∈ [[(1 : ℝ), 0]], l2norm r = 1) ∧
    sample_weight_batch [1] (mat_width [[(1 : ℝ), 0]]) [[(1 / 2, 1)]]
      = some [sw_x (sw_b 1 1)] ∧
    sample_cell [[(1 : ℝ), 0]] [[(1 : ℝ), 1]] [1] [[(1 / 2, 1)]] [[1, 1]] =
      some (combineRows [sw_x (sw_b 1 1)]
        (List.zipWith sample_ortho_row [[(1 : ℝ), 0]] [[1, 1]])
        [[(1 : ℝ), 0]]) := by
  have hmu : ∀ r ∈ [[(1 : ℝ), 0]], l2norm r = 1 := by
    intro r hr
    simp only [List.mem_singleton] at hr
    subst hr
    norm_num [l2norm, sumSq, Real.sqrt_one]
  have hws : sample_weight_batch [1] (mat_width [[(1 : ℝ), 0]]) [[(1 / 2, 1)]]
      = some [sw_x (sw_b 1 1)] := by
    have hwidth : mat_width [[(1 : ℝ), 0]] = 2 := rfl
    rw [hwidth]
    show seqOption [sample_weight 1 2 [(1 / 2, 1)]] = some [sw_x (sw_b 1 1)]
    rw [sample_weight_eval]
    rfl
  exact ⟨hmu, hws, claim_C7 [[(1 : ℝ), 0]] [[(1 : ℝ), 1]] [1] [[(1 / 2, 1)]]
    [[1, 1]] [sw_x (sw_b 1 1)] hmu hws⟩

end VmfHypVae
